import Mathlib

/-!
Shallow embedding of `src/binu8_tool.py` (the Aquarium `.binu8` script codec).

Modelling conventions, used consistently below:

* A Python `bytes` buffer is a `List Nat` (each element a byte value); a file
  handle is the pair of its underlying buffer and an explicit cursor position.
  `src.read(n)` at position `pos` yields `(buf.drop pos).take n` and advances
  the cursor by the number of bytes actually read; `seek` just moves `pos`.
* Python `str` values are `List Char` (Unicode scalar values).
* A result type `Option α` whose `none` is produced where the Python code would
  raise an exception (`struct.error` from `struct.unpack`/`struct.pack`,
  `IndexError` from indexing into a too-short `bytes`, `AttributeError` from
  `None.encode`): `none` models "this call raises", `some` models the value of
  a normal return.
* `read_string_entry` returns `Option (Option (List Char) × Nat)`: the outer
  `Option` models exceptions as above; the inner `Option (List Char)` is the
  function's Python return value, where `none` is Python's `None` (the
  end-of-table sentinel) and `some s` is a decoded string; the `Nat` is the
  cursor position after the call.
-/

/-- Python `byte2int(data)`, i.e. `struct.unpack('<L', data)[0]`: decodes
exactly four bytes as a little-endian unsigned 32-bit integer and raises
`struct.error` (here: `none`) on any other input length. -/
def byte2int : List Nat → Option Nat
  | [a, b, c, d] => some (a + 256 * b + 65536 * c + 16777216 * d)
  | _ => none

/-- The four little-endian bytes of `n % 2^32` (low byte first). -/
def u32le (n : Nat) : List Nat :=
  [n % 256, n / 256 % 256, n / 65536 % 256, n / 16777216 % 256]

/-- Python `struct.pack('<L', n)`: the four little-endian bytes of `n` when
`n < 2^32`, and a raised `struct.error` (here: `none`) otherwise. -/
def pack_u32le (n : Nat) : Option (List Nat) :=
  if n < 4294967296 then some (u32le n) else none

/-- The bytes delivered by `src.read(n)` when the cursor of a file with
contents `buf` stands at `pos`: up to `n` bytes, fewer when the file is
exhausted. -/
def readAt (buf : List Nat) (pos n : Nat) : List Nat :=
  (buf.drop pos).take n

/-- UTF-8 encoding of one Unicode scalar value, as CPython's
`str.encode('utf-8')` produces it (standard UTF-8, 1 to 4 bytes). -/
def utf8EncodeChar (c : Char) : List Nat :=
  let n := c.toNat
  if n < 0x80 then [n]
  else if n < 0x800 then [0xC0 + n / 64, 0x80 + n % 64]
  else if n < 0x10000 then [0xE0 + n / 4096, 0x80 + n / 64 % 64, 0x80 + n % 64]
  else [0xF0 + n / 262144, 0x80 + n / 4096 % 64, 0x80 + n / 64 % 64, 0x80 + n % 64]

/-- Python `text.encode('utf-8')` on a whole string. -/
def utf8Encode : List Char → List Nat
  | [] => []
  | c :: cs => utf8EncodeChar c ++ utf8Encode cs

/-- The replacement character U+FFFD substituted by `errors='replace'`. -/
def replChar : Char := Char.ofNat 0xFFFD

/-- One step of CPython's UTF-8 decoder with `errors='replace'`: given the
lead byte `b` and the bytes `bs` after it, produce the decoded character and
the remaining bytes.  Valid sequences (no overlong forms, no surrogates,
scalar values below U+110000) decode exactly as CPython does; an invalid
sequence never raises but yields U+FFFD.  The resynchronisation policy after
an invalid byte is simplified to "emit one U+FFFD and consume one byte",
which only affects inputs that are not valid UTF-8; no property proved below
depends on it. -/
def utf8Step (b : Nat) (bs : List Nat) : Char × List Nat :=
  if b < 0x80 then (Char.ofNat b, bs)
  else if b < 0xC2 then (replChar, bs)
  else if b < 0xE0 then
    match bs with
    | c1 :: bs1 =>
      if 0x80 ≤ c1 ∧ c1 < 0xC0 then (Char.ofNat ((b - 0xC0) * 64 + (c1 - 0x80)), bs1)
      else (replChar, c1 :: bs1)
    | [] => (replChar, [])
  else if b < 0xF0 then
    match bs with
    | c1 :: c2 :: bs2 =>
      let v := (b - 0xE0) * 4096 + (c1 - 0x80) * 64 + (c2 - 0x80)
      if 0x80 ≤ c1 ∧ c1 < 0xC0 ∧ 0x80 ≤ c2 ∧ c2 < 0xC0 ∧
          0x800 ≤ v ∧ (v < 0xD800 ∨ 0xDFFF < v) then
        (Char.ofNat v, bs2)
      else (replChar, c1 :: c2 :: bs2)
    | l => (replChar, l)
  else if b < 0xF5 then
    match bs with
    | c1 :: c2 :: c3 :: bs3 =>
      let v := (b - 0xF0) * 262144 + (c1 - 0x80) * 4096 + (c2 - 0x80) * 64 + (c3 - 0x80)
      if 0x80 ≤ c1 ∧ c1 < 0xC0 ∧ 0x80 ≤ c2 ∧ c2 < 0xC0 ∧ 0x80 ≤ c3 ∧ c3 < 0xC0 ∧
          0x10000 ≤ v ∧ v < 0x110000 then
        (Char.ofNat v, bs3)
      else (replChar, c1 :: c2 :: c3 :: bs3)
    | l => (replChar, l)
  else (replChar, bs)

/-- Iterate `utf8Step` until the input is exhausted.  The first argument is
fuel, a termination device only: each step consumes at least one byte, so
fuel `bs.length` (as supplied by `utf8DecodeReplace`) never runs out. -/
def utf8DecodeAux : Nat → List Nat → List Char
  | 0, _ => []
  | _ + 1, [] => []
  | fuel + 1, b :: bs =>
    let s := utf8Step b bs
    s.1 :: utf8DecodeAux fuel s.2

/-- Python `bytes.decode('utf-8', errors='replace')`: a total UTF-8 decoder,
see `utf8Step` for the per-character behaviour. -/
def utf8DecodeReplace (bs : List Nat) : List Char := utf8DecodeAux bs.length bs

/-- Python `parse_header`, first `if` condition, evaluated with Python's
short-circuit semantics on `version = src.read(9)`:
`version[0] == 0x56 and version[1] == 0x45 and version[2] == 0x52`.
`none` models the `IndexError` raised when an evaluated index is out of
range. -/
def evalCond1 (v : List Nat) : Option Bool := do
  let a ← v[0]?
  if a = 0x56 then do
    let b ← v[1]?
    if b = 0x45 then do
      let c ← v[2]?
      pure (c == 0x52)
    else pure false
  else pure false

/-- Python `parse_header`, `elif` condition, with short-circuit semantics:
`version[0] == 9 and version[4] == 0x56 and version[5] == 0x45 and
version[6] == 0x52`. -/
def evalCond2 (v : List Nat) : Option Bool := do
  let a ← v[0]?
  if a = 9 then do
    let b ← v[4]?
    if b = 0x56 then do
      let c ← v[5]?
      if c = 0x45 then do
        let d ← v[6]?
        pure (d == 0x52)
      else pure false
    else pure false
  else pure false

/-- One `count`-then-skip step of `parse_header`: at position `pos`, read four
bytes as a little-endian count (`struct.error`, i.e. `none`, when fewer than
four bytes remain) and advance past `count * recSize` further bytes; returns
the new cursor position. Models
`cnt = byte2int(src.read(4)); src.seek(cnt * recSize, 1)`. -/
def skipTable (buf : List Nat) (pos recSize : Nat) : Option Nat := do
  let cnt ← byte2int (readAt buf pos 4)
  pure (pos + 4 + cnt * recSize)

/-- Python `parse_header(src)`: classifies the header variant from the first
nine bytes, skips the optional version block, then the init-code table
(8-byte records) and the code table (8-byte records), and returns the cursor
position, which is the string-table offset.  `none` models a raised
`IndexError` or `struct.error`. -/
def parse_header (buf : List Nat) : Option Nat := do
  let version := readAt buf 0 9
  let c1 ← evalCond1 version
  let start ←
    if c1 then skipTable buf 9 4
    else do
      let c2 ← evalCond2 version
      if c2 then skipTable buf 13 4
      else pure 0
  let p1 ← skipTable buf start 8
  skipTable buf p1 8

/-- Python `read_string_entry(src)` with the cursor of `src` at `pos`.
Returns `none` for a raised `struct.error` (1 to 3 bytes left in the file),
`some (none, pos')` for the Python return value `None` (end-of-table
sentinel, no bytes left), and `some (some s, pos')` for a decoded string. -/
def read_string_entry (buf : List Nat) (pos : Nat) : Option (Option (List Char) × Nat) :=
  let len_bytes := readAt buf pos 4
  if len_bytes = [] then
    some (none, pos)
  else
    match byte2int len_bytes with
    | none => none
    | some length =>
      if 0 < length then
        let content := readAt buf (pos + 4) length
        if content ≠ [] ∧ content.getLast? = some 0 then
          some (some (utf8DecodeReplace content.dropLast), pos + 4 + content.length)
        else
          some (some (utf8DecodeReplace content), pos + 4 + content.length)
      else
        some (some [], pos + 4)

/-- Python `write_string_entry(dst, text)`: the bytes appended to `dst`,
namely a four-byte little-endian length field holding
`len(text.encode('utf-8')) + 1`, the UTF-8 bytes, and a single null byte.
`none` models the `struct.error` raised by `struct.pack('<L', ·)` when the
length does not fit in 32 bits. -/
def write_string_entry (text : List Char) : Option (List Nat) :=
  match pack_u32le ((utf8Encode text).length + 1) with
  | none => none
  | some lenField => some (lenField ++ utf8Encode text ++ [0])

/-- Python `text.replace(a, rep)` for a single-character pattern `a`. -/
def replaceChar (a : Char) (rep : List Char) : List Char → List Char
  | [] => []
  | c :: cs => (if c = a then rep else [c]) ++ replaceChar a rep cs

/-- The dump-side escaping `text.replace('\n', '\\n').replace('\r', '\\r')`
applied to each extracted string before it is put in a CSV row. -/
def sanitize (s : List Char) : List Char :=
  replaceChar '\r' ['\\', 'r'] (replaceChar '\n' ['\\', 'n'] s)

/-- The entry loop of `dump_script` over one file:
`for i in range(k)` starting at index `i` with the source cursor at `pos`,
collecting `(i, sanitized text)` rows for every entry that is not `None`.
`none` models a raised `struct.error` inside `read_string_entry`. -/
def dump_entry_loop (buf : List Nat) : Nat → Nat → Nat → Option (List (Nat × List Char) × Nat)
  | 0, _, pos => some ([], pos)
  | k + 1, i, pos =>
    match read_string_entry buf pos with
    | none => none
    | some (text, pos1) =>
      match dump_entry_loop buf k (i + 1) pos1 with
      | none => none
      | some (rows, finalPos) =>
        match text with
        | some s => some ((i, sanitize s) :: rows, finalPos)
        | none => some (rows, finalPos)

/-- The per-file body of `dump_script` (the filesystem and CSV glue around it
is excluded by the spec): locate the string table, read `str_count`, skip the
five opaque bytes, and run the entry loop `str_count - 1` times. -/
def dump_script_file (buf : List Nat) : Option (List (Nat × List Char) × Nat) :=
  match parse_header buf with
  | none => none
  | some str_offset =>
    match byte2int (readAt buf str_offset 4) with
    | none => none
    | some str_count =>
      dump_entry_loop buf (str_count - 1) 0 (str_offset + 9)

/-- The entry loop of `import_script` over one file: `for i in range(k)`.
Each step reads the original entry, picks the translation for index `i` when
it is present and truthy (a non-empty string), else the original, and writes
the chosen text.  `none` models a raised exception: `struct.error` in
`read_string_entry`, or the `AttributeError` from `None.encode('utf-8')` when
`write_string_entry` receives Python `None` after the source is exhausted. -/
def import_entry_loop (buf : List Nat) (tmap : Nat → Option (List Char)) :
    Nat → Nat → Nat → Option (List Nat × Nat)
  | 0, _, pos => some ([], pos)
  | k + 1, i, pos =>
    match read_string_entry buf pos with
    | none => none
    | some (original_text, pos1) =>
      let text_to_write :=
        match tmap i with
        | some t => if t = [] then original_text else some t
        | none => original_text
      match text_to_write with
      | none => none
      | some t =>
        match write_string_entry t with
        | none => none
        | some entryBytes =>
          match import_entry_loop buf tmap k (i + 1) pos1 with
          | none => none
          | some (out, finalPos) => some (entryBytes ++ out, finalPos)

/-- The per-file body of `import_script` (directory and CSV glue excluded):
copy the first `str_offset + 9` bytes verbatim, re-read `str_count`, skip the
five opaque bytes, rewrite `str_count - 1` entries, and copy everything after
the final cursor position verbatim.  Returns the output file's bytes. -/
def import_script_file (buf : List Nat) (tmap : Nat → Option (List Char)) : Option (List Nat) :=
  match parse_header buf with
  | none => none
  | some str_offset =>
    match byte2int (readAt buf str_offset 4) with
    | none => none
    | some str_count =>
      match import_entry_loop buf tmap (str_count - 1) 0 (str_offset + 9) with
      | none => none
      | some (out, finalPos) =>
        some (readAt buf 0 (str_offset + 9) ++ out ++ buf.drop finalPos)

/-- A source-file string entry of the shape claims C2 and C9 assume: a
non-zero length field that counts the content bytes, content that is the
UTF-8 encoding of some string followed by a single terminating null byte. -/
def goodEntry (e : List Nat) : Prop :=
  ∃ s : List Char,
    (utf8Encode s).length + 1 < 4294967296 ∧
    e = u32le ((utf8Encode s).length + 1) ++ utf8Encode s ++ [0]

/-! ### Basic facts about the byte-level primitives -/

theorem byte2int_u32le {n : Nat} (h : n < 4294967296) : byte2int (u32le n) = some n := by
  simp only [u32le, byte2int, Option.some.injEq]
  omega

theorem byte2int_shape {xs : List Nat} {v : Nat} (h : byte2int xs = some v) :
    xs.length = 4 := by
  match xs with
  | [] => simp [byte2int] at h
  | [a] => simp [byte2int] at h
  | [a, b] => simp [byte2int] at h
  | [a, b, c] => simp [byte2int] at h
  | [a, b, c, d] => rfl
  | a :: b :: c :: d :: e :: t => simp [byte2int] at h

theorem readAt_eq_nil {buf : List Nat} {pos n : Nat} (h : buf.length ≤ pos) :
    readAt buf pos n = [] := by
  simp [readAt, List.drop_eq_nil_of_le h]

theorem readAt_ne_nil {buf : List Nat} {pos n : Nat} (h : pos < buf.length) (hn : 0 < n) :
    readAt buf pos n ≠ [] := by
  simp only [readAt, ne_eq, List.take_eq_nil_iff, List.drop_eq_nil_iff]
  omega

/-! ### The UTF-8 round trip -/

theorem utf8Step_len (b : Nat) (bs : List Nat) : (utf8Step b bs).2.length ≤ bs.length := by
  rcases bs with _ | ⟨c1, _ | ⟨c2, _ | ⟨c3, bs3⟩⟩⟩ <;>
    (simp only [utf8Step]; (repeat' split) <;> (simp; try omega))

theorem utf8DecodeAux_nil : ∀ f, utf8DecodeAux f [] = []
  | 0 => rfl
  | _ + 1 => rfl

theorem utf8DecodeAux_congr : ∀ f g bs, bs.length ≤ f → bs.length ≤ g →
    utf8DecodeAux f bs = utf8DecodeAux g bs := by
  intro f
  induction f with
  | zero =>
    intro g bs hf _
    have : bs = [] := List.eq_nil_of_length_eq_zero (Nat.le_zero.mp hf)
    subst this
    rw [utf8DecodeAux_nil, utf8DecodeAux_nil]
  | succ f ih =>
    intro g bs hf hg
    match bs, g with
    | [], _ => rw [utf8DecodeAux_nil, utf8DecodeAux_nil]
    | b :: bs1, g1 + 1 =>
      simp only [utf8DecodeAux]
      have hs := utf8Step_len b bs1
      simp only [List.length_cons] at hf hg
      exact congrArg _ (ih g1 _ (by omega) (by omega))

/-- The one-step unfolding of the decoder on a non-empty byte list. -/
theorem utf8DecodeReplace_cons (b : Nat) (bs : List Nat) :
    utf8DecodeReplace (b :: bs) = (utf8Step b bs).1 :: utf8DecodeReplace (utf8Step b bs).2 := by
  simp only [utf8DecodeReplace, List.length_cons, utf8DecodeAux]
  exact congrArg _ (utf8DecodeAux_congr _ _ _ (utf8Step_len b bs) le_rfl)

theorem utf8DecodeReplace_nil : utf8DecodeReplace [] = [] := rfl

theorem char_toNat_valid (c : Char) :
    c.toNat < 0xD800 ∨ (0xDFFF < c.toNat ∧ c.toNat < 0x110000) := c.valid

/-- Decoding one freshly encoded scalar consumes exactly its encoding and
yields the scalar back, whatever bytes follow. -/
theorem utf8DecodeReplace_encodeChar (c : Char) (rest : List Nat) :
    utf8DecodeReplace (utf8EncodeChar c ++ rest) = c :: utf8DecodeReplace rest := by
  have hv := char_toNat_valid c
  by_cases h1 : c.toNat < 0x80
  · have henc : utf8EncodeChar c = [c.toNat] := by
      simp [utf8EncodeChar, h1]
    have hstep : utf8Step c.toNat rest = (c, rest) := by
      simp only [utf8Step, h1, if_true, ite_true, Char.ofNat_toNat]
    rw [henc, List.singleton_append, utf8DecodeReplace_cons, hstep]
  · by_cases h2 : c.toNat < 0x800
    · have henc : utf8EncodeChar c = [0xC0 + c.toNat / 64, 0x80 + c.toNat % 64] := by
        simp [utf8EncodeChar, h1, h2]
      have f1 : ¬ (0xC0 + c.toNat / 64 < 0x80) := by omega
      have f2 : ¬ (0xC0 + c.toNat / 64 < 0xC2) := by omega
      have f3 : 0xC0 + c.toNat / 64 < 0xE0 := by omega
      have f4 : 0x80 ≤ 0x80 + c.toNat % 64 ∧ 0x80 + c.toNat % 64 < 0xC0 := by omega
      have hc : Char.ofNat ((0xC0 + c.toNat / 64 - 0xC0) * 64 + (0x80 + c.toNat % 64 - 0x80)) = c := by
        have e : (0xC0 + c.toNat / 64 - 0xC0) * 64 + (0x80 + c.toNat % 64 - 0x80) = c.toNat := by
          omega
        rw [e, Char.ofNat_toNat]
      have hstep : utf8Step (0xC0 + c.toNat / 64) ((0x80 + c.toNat % 64) :: rest) = (c, rest) := by
        simp only [utf8Step, f1, f2, f3, f4, hc, if_true, if_false, ite_true, ite_false,
          and_self, not_false_iff]
      rw [henc, List.cons_append, List.singleton_append, utf8DecodeReplace_cons, hstep]
    · by_cases h3 : c.toNat < 0x10000
      · have henc : utf8EncodeChar c =
            [0xE0 + c.toNat / 4096, 0x80 + c.toNat / 64 % 64, 0x80 + c.toNat % 64] := by
          simp [utf8EncodeChar, h1, h2, h3]
        have f1 : ¬ (0xE0 + c.toNat / 4096 < 0x80) := by omega
        have f2 : ¬ (0xE0 + c.toNat / 4096 < 0xC2) := by omega
        have f3 : ¬ (0xE0 + c.toNat / 4096 < 0xE0) := by omega
        have f4 : 0xE0 + c.toNat / 4096 < 0xF0 := by omega
        have e : (0xE0 + c.toNat / 4096 - 0xE0) * 4096 + (0x80 + c.toNat / 64 % 64 - 0x80) * 64 +
            (0x80 + c.toNat % 64 - 0x80) = c.toNat := by
          omega
        have fcond : 0x80 ≤ 0x80 + c.toNat / 64 % 64 ∧ 0x80 + c.toNat / 64 % 64 < 0xC0 ∧
            0x80 ≤ 0x80 + c.toNat % 64 ∧ 0x80 + c.toNat % 64 < 0xC0 ∧
            0x800 ≤ (0xE0 + c.toNat / 4096 - 0xE0) * 4096 +
              (0x80 + c.toNat / 64 % 64 - 0x80) * 64 + (0x80 + c.toNat % 64 - 0x80) ∧
            ((0xE0 + c.toNat / 4096 - 0xE0) * 4096 +
              (0x80 + c.toNat / 64 % 64 - 0x80) * 64 + (0x80 + c.toNat % 64 - 0x80) < 0xD800 ∨
             0xDFFF < (0xE0 + c.toNat / 4096 - 0xE0) * 4096 +
              (0x80 + c.toNat / 64 % 64 - 0x80) * 64 + (0x80 + c.toNat % 64 - 0x80)) := by
          refine ⟨by omega, by omega, by omega, by omega, by omega, ?_⟩
          rw [e]
          rcases hv with hlo | ⟨hhi, _⟩
          · exact Or.inl hlo
          · exact Or.inr hhi
        have hc : Char.ofNat ((0xE0 + c.toNat / 4096 - 0xE0) * 4096 +
            (0x80 + c.toNat / 64 % 64 - 0x80) * 64 + (0x80 + c.toNat % 64 - 0x80)) = c := by
          rw [e, Char.ofNat_toNat]
        have hstep : utf8Step (0xE0 + c.toNat / 4096)
            ((0x80 + c.toNat / 64 % 64) :: (0x80 + c.toNat % 64) :: rest) = (c, rest) := by
          simp only [utf8Step, f1, f2, f3, f4, fcond, hc, if_true, if_false, ite_true,
            ite_false, and_self, not_false_iff]
        rw [henc, List.cons_append, List.cons_append, List.singleton_append,
          utf8DecodeReplace_cons, hstep]
      · have h4 : c.toNat < 0x110000 := by
          rcases hv with hlo | ⟨_, hhi⟩
          · omega
          · exact hhi
        have henc : utf8EncodeChar c =
            [0xF0 + c.toNat / 262144, 0x80 + c.toNat / 4096 % 64,
             0x80 + c.toNat / 64 % 64, 0x80 + c.toNat % 64] := by
          simp [utf8EncodeChar, h1, h2, h3]
        have f1 : ¬ (0xF0 + c.toNat / 262144 < 0x80) := by omega
        have f2 : ¬ (0xF0 + c.toNat / 262144 < 0xC2) := by omega
        have f3 : ¬ (0xF0 + c.toNat / 262144 < 0xE0) := by omega
        have f4 : ¬ (0xF0 + c.toNat / 262144 < 0xF0) := by omega
        have f5 : 0xF0 + c.toNat / 262144 < 0xF5 := by omega
        have e : (0xF0 + c.toNat / 262144 - 0xF0) * 262144 +
            (0x80 + c.toNat / 4096 % 64 - 0x80) * 4096 +
            (0x80 + c.toNat / 64 % 64 - 0x80) * 64 + (0x80 + c.toNat % 64 - 0x80) = c.toNat := by
          omega
        have fcond : 0x80 ≤ 0x80 + c.toNat / 4096 % 64 ∧ 0x80 + c.toNat / 4096 % 64 < 0xC0 ∧
            0x80 ≤ 0x80 + c.toNat / 64 % 64 ∧ 0x80 + c.toNat / 64 % 64 < 0xC0 ∧
            0x80 ≤ 0x80 + c.toNat % 64 ∧ 0x80 + c.toNat % 64 < 0xC0 ∧
            0x10000 ≤ (0xF0 + c.toNat / 262144 - 0xF0) * 262144 +
              (0x80 + c.toNat / 4096 % 64 - 0x80) * 4096 +
              (0x80 + c.toNat / 64 % 64 - 0x80) * 64 + (0x80 + c.toNat % 64 - 0x80) ∧
            (0xF0 + c.toNat / 262144 - 0xF0) * 262144 +
              (0x80 + c.toNat / 4096 % 64 - 0x80) * 4096 +
              (0x80 + c.toNat / 64 % 64 - 0x80) * 64 + (0x80 + c.toNat % 64 - 0x80) < 0x110000 := by
          exact ⟨by omega, by omega, by omega, by omega, by omega, by omega, by omega, by omega⟩
        have hc : Char.ofNat ((0xF0 + c.toNat / 262144 - 0xF0) * 262144 +
            (0x80 + c.toNat / 4096 % 64 - 0x80) * 4096 +
            (0x80 + c.toNat / 64 % 64 - 0x80) * 64 + (0x80 + c.toNat % 64 - 0x80)) = c := by
          rw [e, Char.ofNat_toNat]
        have hstep : utf8Step (0xF0 + c.toNat / 262144)
            ((0x80 + c.toNat / 4096 % 64) :: (0x80 + c.toNat / 64 % 64) ::
              (0x80 + c.toNat % 64) :: rest) = (c, rest) := by
          simp only [utf8Step, f1, f2, f3, f4, f5, fcond, hc, if_true, if_false, ite_true,
            ite_false, and_self, not_false_iff]
        rw [henc, List.cons_append, List.cons_append, List.cons_append, List.singleton_append,
          utf8DecodeReplace_cons, hstep]

/-- Decoding a freshly encoded string consumes exactly its encoding. -/
theorem utf8DecodeReplace_encode_append (s : List Char) (rest : List Nat) :
    utf8DecodeReplace (utf8Encode s ++ rest) = s ++ utf8DecodeReplace rest := by
  induction s with
  | nil => simp [utf8Encode]
  | cons c cs ih =>
    simp only [utf8Encode, List.append_assoc, utf8DecodeReplace_encodeChar, ih, List.cons_append]

/-- CPython's lossy UTF-8 decoder is a left inverse of its encoder. -/
theorem utf8DecodeReplace_encode (s : List Char) :
    utf8DecodeReplace (utf8Encode s) = s := by
  have h := utf8DecodeReplace_encode_append s []
  simpa [utf8DecodeReplace_nil] using h

/-! ### Reading and writing well-formed entries -/

theorem u32le_length (n : Nat) : (u32le n).length = 4 := rfl

theorem drop_after (buf : List Nat) (pos : Nat) (e t : List Nat)
    (h : buf.drop pos = e ++ t) : buf.drop (pos + e.length) = t := by
  rw [← List.drop_drop, h, List.drop_left]

/-- Reading at a position where the remaining bytes start with a well-formed
entry for the string `s` yields `s` and consumes exactly the entry bytes. -/
theorem read_string_entry_good (buf : List Nat) (pos : Nat) (s : List Char) (rest : List Nat)
    (hlen : (utf8Encode s).length + 1 < 4294967296)
    (hdrop : buf.drop pos = (u32le ((utf8Encode s).length + 1) ++ utf8Encode s ++ [0]) ++ rest) :
    read_string_entry buf pos = some (some s, pos + 4 + ((utf8Encode s).length + 1)) := by
  have hassoc1 : (u32le ((utf8Encode s).length + 1) ++ utf8Encode s ++ [0]) ++ rest =
      u32le ((utf8Encode s).length + 1) ++ ((utf8Encode s ++ [0]) ++ rest) := by
    simp [List.append_assoc]
  have hlb : readAt buf pos 4 = u32le ((utf8Encode s).length + 1) := by
    rw [readAt, hdrop, hassoc1, List.take_left' (u32le_length _)]
  have hdrop4 : buf.drop (pos + 4) = (utf8Encode s ++ [0]) ++ rest := by
    rw [← List.drop_drop, hdrop, hassoc1, List.drop_left' (u32le_length _)]
  have hcontent : readAt buf (pos + 4) ((utf8Encode s).length + 1) = utf8Encode s ++ [0] := by
    rw [readAt, hdrop4, List.take_left' (by simp)]
  have hne : u32le ((utf8Encode s).length + 1) ≠ [] := by simp [u32le]
  simp [read_string_entry, hlb, hne, byte2int_u32le hlen, hcontent,
    List.getLast?_concat, List.dropLast_concat, utf8DecodeReplace_encode]

/-- Writing `s` emits exactly the well-formed entry bytes for `s`. -/
theorem write_string_entry_good (s : List Char)
    (hlen : (utf8Encode s).length + 1 < 4294967296) :
    write_string_entry s = some (u32le ((utf8Encode s).length + 1) ++ utf8Encode s ++ [0]) := by
  simp [write_string_entry, pack_u32le, hlen]

theorem goodEntry_length {e : List Nat} (s : List Char)
    (he : e = u32le ((utf8Encode s).length + 1) ++ utf8Encode s ++ [0]) :
    e.length = 4 + ((utf8Encode s).length + 1) := by
  subst he
  simp [u32le]
  omega

/-! ### The entry loops on a run of well-formed entries -/

/-- The import loop with the empty translation map copies a run of
well-formed entries byte-for-byte and stops right after it. -/
theorem import_entry_loop_id (buf : List Nat) :
    ∀ (entries : List (List Nat)) (i pos : Nat) (rest : List Nat),
      (∀ e ∈ entries, goodEntry e) →
      buf.drop pos = entries.flatten ++ rest →
      import_entry_loop buf (fun _ => none) entries.length i pos =
        some (entries.flatten, pos + entries.flatten.length) := by
  intro entries
  induction entries with
  | nil =>
    intro i pos rest _ _
    simp [import_entry_loop]
  | cons e es ih =>
    intro i pos rest hgood hdrop
    obtain ⟨s, hlen, he⟩ := hgood e (List.mem_cons_self e es)
    have hdrop1 : buf.drop pos =
        (u32le ((utf8Encode s).length + 1) ++ utf8Encode s ++ [0]) ++ (es.flatten ++ rest) := by
      rw [hdrop]
      simp [he, List.append_assoc]
    have hread := read_string_entry_good buf pos s (es.flatten ++ rest) hlen hdrop1
    have hwrite := write_string_entry_good s hlen
    have hlenE := goodEntry_length s he
    have hdropNext : buf.drop (pos + 4 + ((utf8Encode s).length + 1)) = es.flatten ++ rest := by
      have h0 : buf.drop pos = e ++ (es.flatten ++ rest) := by
        rw [hdrop]; simp [List.append_assoc]
      have h1 := drop_after buf pos e (es.flatten ++ rest) h0
      rw [hlenE] at h1
      have h2 : pos + (4 + ((utf8Encode s).length + 1)) = pos + 4 + ((utf8Encode s).length + 1) := by
        omega
      rw [h2] at h1
      exact h1
    have hrec := ih (i + 1) (pos + 4 + ((utf8Encode s).length + 1)) rest
      (fun e' he' => hgood e' (List.mem_cons_of_mem _ he')) hdropNext
    simp only [List.length_cons, import_entry_loop, hread, hwrite, hrec, ← he]
    simp [List.append_assoc, he, u32le]
    omega

/-- With an arbitrary translation map whose entries are either empty (falsy,
so the original is kept) or encodable within a 32-bit length field,
the import loop over a run of well-formed entries succeeds and consumes exactly
the run; the bytes it emits may differ, but the final cursor position is the
end of the run. -/
theorem import_entry_loop_general (buf : List Nat) (tmap : Nat → Option (List Char))
    (htm : ∀ i t, tmap i = some t → t = [] ∨ (utf8Encode t).length + 1 < 4294967296) :
    ∀ (entries : List (List Nat)) (i pos : Nat) (rest : List Nat),
      (∀ e ∈ entries, goodEntry e) →
      buf.drop pos = entries.flatten ++ rest →
      ∃ out, import_entry_loop buf tmap entries.length i pos =
        some (out, pos + entries.flatten.length) := by
  intro entries
  induction entries with
  | nil =>
    intro i pos rest _ _
    exact ⟨[], by simp [import_entry_loop]⟩
  | cons e es ih =>
    intro i pos rest hgood hdrop
    obtain ⟨s, hlen, he⟩ := hgood e (List.mem_cons_self e es)
    have hdrop1 : buf.drop pos =
        (u32le ((utf8Encode s).length + 1) ++ utf8Encode s ++ [0]) ++ (es.flatten ++ rest) := by
      rw [hdrop]
      simp [he, List.append_assoc]
    have hread := read_string_entry_good buf pos s (es.flatten ++ rest) hlen hdrop1
    have hlenE := goodEntry_length s he
    have hdropNext : buf.drop (pos + 4 + ((utf8Encode s).length + 1)) = es.flatten ++ rest := by
      have h0 : buf.drop pos = e ++ (es.flatten ++ rest) := by
        rw [hdrop]; simp [List.append_assoc]
      have h1 := drop_after buf pos e (es.flatten ++ rest) h0
      rw [hlenE] at h1
      have h2 : pos + (4 + ((utf8Encode s).length + 1)) =
          pos + 4 + ((utf8Encode s).length + 1) := by omega
      rw [h2] at h1
      exact h1
    obtain ⟨out, hrec⟩ := ih (i + 1) (pos + 4 + ((utf8Encode s).length + 1)) rest
      (fun e' he' => hgood e' (List.mem_cons_of_mem _ he')) hdropNext
    have hwrote : ∃ t eb, (match tmap i with
        | some tr => if tr = [] then some s else some tr
        | none => some s) = some t ∧ write_string_entry t = some eb := by
      match htmi : tmap i with
      | none => exact ⟨s, _, rfl, write_string_entry_good s hlen⟩
      | some tr =>
        by_cases htr : tr = []
        · exact ⟨s, _, by simp [htr], write_string_entry_good s hlen⟩
        · rcases htm i tr htmi with h | h
          · exact absurd h htr
          · exact ⟨tr, _, by simp [htr], write_string_entry_good tr h⟩
    obtain ⟨t, eb, hsel, heb⟩ := hwrote
    refine ⟨eb ++ out, ?_⟩
    simp only [List.length_cons, import_entry_loop, hread, hsel, heb, hrec]
    simp [List.length_append, hlenE]
    omega

/-- The dump loop over a run of well-formed entries collects exactly one row
per entry, with consecutive indices starting at `i`, and stops right after
the run. -/
theorem dump_entry_loop_good (buf : List Nat) :
    ∀ (entries : List (List Nat)) (i pos : Nat) (rest : List Nat),
      (∀ e ∈ entries, goodEntry e) →
      buf.drop pos = entries.flatten ++ rest →
      ∃ rows, dump_entry_loop buf entries.length i pos =
          some (rows, pos + entries.flatten.length) ∧
        rows.map Prod.fst = List.range' i entries.length := by
  intro entries
  induction entries with
  | nil =>
    intro i pos rest _ _
    exact ⟨[], by simp [dump_entry_loop], by simp [List.range']⟩
  | cons e es ih =>
    intro i pos rest hgood hdrop
    obtain ⟨s, hlen, he⟩ := hgood e (List.mem_cons_self e es)
    have hdrop1 : buf.drop pos =
        (u32le ((utf8Encode s).length + 1) ++ utf8Encode s ++ [0]) ++ (es.flatten ++ rest) := by
      rw [hdrop]
      simp [he, List.append_assoc]
    have hread := read_string_entry_good buf pos s (es.flatten ++ rest) hlen hdrop1
    have hlenE := goodEntry_length s he
    have hdropNext : buf.drop (pos + 4 + ((utf8Encode s).length + 1)) = es.flatten ++ rest := by
      have h0 : buf.drop pos = e ++ (es.flatten ++ rest) := by
        rw [hdrop]; simp [List.append_assoc]
      have h1 := drop_after buf pos e (es.flatten ++ rest) h0
      rw [hlenE] at h1
      have h2 : pos + (4 + ((utf8Encode s).length + 1)) =
          pos + 4 + ((utf8Encode s).length + 1) := by omega
      rw [h2] at h1
      exact h1
    obtain ⟨rows, hrec, hfst⟩ := ih (i + 1) (pos + 4 + ((utf8Encode s).length + 1)) rest
      (fun e' he' => hgood e' (List.mem_cons_of_mem _ he')) hdropNext
    refine ⟨(i, sanitize s) :: rows, ?_, ?_⟩
    · simp only [List.length_cons, dump_entry_loop, hread, hrec]
      simp [List.length_append, hlenE]
      omega
    · simp [hfst, List.range']

/-! ### Facts about the header scan -/

theorem getElem?_readAt9 (buf : List Nat) (i : Nat) (h : i < 9) :
    (readAt buf 0 9)[i]? = buf[i]? := by
  rw [readAt, List.drop_zero, List.getElem?_take_of_lt h]

theorem evalCond1_true {buf : List Nat} (h0 : buf[0]? = some 0x56)
    (h1 : buf[1]? = some 0x45) (h2 : buf[2]? = some 0x52) :
    evalCond1 (readAt buf 0 9) = some true := by
  have e0 := getElem?_readAt9 buf 0 (by omega)
  have e1 := getElem?_readAt9 buf 1 (by omega)
  have e2 := getElem?_readAt9 buf 2 (by omega)
  simp [evalCond1, e0, e1, e2, h0, h1, h2]

theorem evalCond1_false_of_nine {buf : List Nat} (h0 : buf[0]? = some 9) :
    evalCond1 (readAt buf 0 9) = some false := by
  have e0 := getElem?_readAt9 buf 0 (by omega)
  simp [evalCond1, e0, h0]

theorem evalCond2_true {buf : List Nat} (h0 : buf[0]? = some 9)
    (h4 : buf[4]? = some 0x56) (h5 : buf[5]? = some 0x45) (h6 : buf[6]? = some 0x52) :
    evalCond2 (readAt buf 0 9) = some true := by
  have e0 := getElem?_readAt9 buf 0 (by omega)
  have e4 := getElem?_readAt9 buf 4 (by omega)
  have e5 := getElem?_readAt9 buf 5 (by omega)
  have e6 := getElem?_readAt9 buf 6 (by omega)
  simp [evalCond2, e0, e4, e5, e6, h0, h4, h5, h6]

/-- The Unversioned path of `parse_header`: both magic checks evaluate to
`false` without raising, and the two table counts are read at offsets 0 and
`4 + ic * 8`. -/
theorem parse_header_unversioned {buf : List Nat} {ic cc : Nat}
    (hc1 : evalCond1 (readAt buf 0 9) = some false)
    (hc2 : evalCond2 (readAt buf 0 9) = some false)
    (hic : byte2int (readAt buf 0 4) = some ic)
    (hcc : byte2int (readAt buf (4 + ic * 8) 4) = some cc) :
    parse_header buf = some (8 + ic * 8 + cc * 8) := by
  have hs0 : skipTable buf 0 8 = some (4 + ic * 8) := by
    simp [skipTable, hic]
  have hs1 : skipTable buf (4 + ic * 8) 8 = some (4 + ic * 8 + 4 + cc * 8) := by
    simp [skipTable, hcc]
  have hmain : parse_header buf = some (4 + ic * 8 + 4 + cc * 8) := by
    simp [parse_header, hc1, hc2, hs0, hs1]
  rw [hmain]
  congr 1
  omega

/-- C1: for every buffer on which the reads prescribed by the spec's variant
formula succeed, `parse_header` returns exactly the offset the formula
predicts.  Variant `NoLengthPrefixVersioned` (bytes 0..2 = `V`,`E`,`R`):
cursor 9, skip `unk * 4`, then the two count-plus-skip steps, giving
`21 + unk*4 + ic*8 + cc*8`.  Variant `LengthPrefixedVersioned` (byte 0 = 9,
bytes 4..6 = `V`,`E`,`R`): cursor 13, giving `25 + unk*4 + ic*8 + cc*8`.
Otherwise (both magic checks evaluate to false): cursor 0, giving
`8 + ic*8 + cc*8`.  The hypotheses mention only the bytes the formula
consumes, so the result is independent of all other bytes. -/
theorem claim_C1_header_offset (buf : List Nat) (unk ic cc : Nat) :
    ((buf[0]? = some 0x56 ∧ buf[1]? = some 0x45 ∧ buf[2]? = some 0x52 ∧
      byte2int (readAt buf 9 4) = some unk ∧
      byte2int (readAt buf (13 + unk * 4) 4) = some ic ∧
      byte2int (readAt buf (17 + unk * 4 + ic * 8) 4) = some cc) →
      parse_header buf = some (21 + unk * 4 + ic * 8 + cc * 8)) ∧
    ((buf[0]? = some 9 ∧ buf[4]? = some 0x56 ∧ buf[5]? = some 0x45 ∧ buf[6]? = some 0x52 ∧
      byte2int (readAt buf 13 4) = some unk ∧
      byte2int (readAt buf (17 + unk * 4) 4) = some ic ∧
      byte2int (readAt buf (21 + unk * 4 + ic * 8) 4) = some cc) →
      parse_header buf = some (25 + unk * 4 + ic * 8 + cc * 8)) ∧
    ((evalCond1 (readAt buf 0 9) = some false ∧ evalCond2 (readAt buf 0 9) = some false ∧
      byte2int (readAt buf 0 4) = some ic ∧
      byte2int (readAt buf (4 + ic * 8) 4) = some cc) →
      parse_header buf = some (8 + ic * 8 + cc * 8)) := by
  refine ⟨fun h => ?_, fun h => ?_, fun h => ?_⟩
  · obtain ⟨h0, h1, h2, hU, hI, hC⟩ := h
    have e1 := evalCond1_true h0 h1 h2
    have hs0 : skipTable buf 9 4 = some (13 + unk * 4) := by
      simp [skipTable, hU]
    have hs1 : skipTable buf (13 + unk * 4) 8 = some (13 + unk * 4 + 4 + ic * 8) := by
      simp [skipTable, hI]
    have hC' : byte2int (readAt buf (13 + unk * 4 + 4 + ic * 8) 4) = some cc := by
      have e : 13 + unk * 4 + 4 + ic * 8 = 17 + unk * 4 + ic * 8 := by omega
      rw [e]; exact hC
    have hs2 : skipTable buf (13 + unk * 4 + 4 + ic * 8) 8 =
        some (13 + unk * 4 + 4 + ic * 8 + 4 + cc * 8) := by
      simp [skipTable, hC']
    have hmain : parse_header buf = some (13 + unk * 4 + 4 + ic * 8 + 4 + cc * 8) := by
      simp [parse_header, e1, hs0, hs1, hs2]
    rw [hmain]
    congr 1
    omega
  · obtain ⟨h0, h4, h5, h6, hU, hI, hC⟩ := h
    have e1 := evalCond1_false_of_nine h0
    have e2 := evalCond2_true h0 h4 h5 h6
    have hs0 : skipTable buf 13 4 = some (17 + unk * 4) := by
      simp [skipTable, hU]
    have hs1 : skipTable buf (17 + unk * 4) 8 = some (17 + unk * 4 + 4 + ic * 8) := by
      simp [skipTable, hI]
    have hC' : byte2int (readAt buf (17 + unk * 4 + 4 + ic * 8) 4) = some cc := by
      have e : 17 + unk * 4 + 4 + ic * 8 = 21 + unk * 4 + ic * 8 := by omega
      rw [e]; exact hC
    have hs2 : skipTable buf (17 + unk * 4 + 4 + ic * 8) 8 =
        some (17 + unk * 4 + 4 + ic * 8 + 4 + cc * 8) := by
      simp [skipTable, hC']
    have hmain : parse_header buf = some (17 + unk * 4 + 4 + ic * 8 + 4 + cc * 8) := by
      simp [parse_header, e1, e2, hs0, hs1, hs2]
    rw [hmain]
    congr 1
    omega
  · obtain ⟨hc1, hc2, hic, hcc⟩ := h
    exact parse_header_unversioned hc1 hc2 hic hcc

/-- Witness for C1: one concrete buffer per header variant. -/
theorem claim_C1_header_offset_witness :
    parse_header [0x56, 0x45, 0x52, 0, 0, 0, 0, 0, 0, 1, 0, 0, 0, 0, 0, 0, 0,
      0, 0, 0, 0, 0, 0, 0, 0] = some (21 + 1 * 4 + 0 * 8 + 0 * 8) ∧
    parse_header [9, 0, 0, 0, 0x56, 0x45, 0x52, 0, 0, 7, 7, 7, 7, 0, 0, 0, 0,
      0, 0, 0, 0, 0, 0, 0, 0] = some (25 + 0 * 4 + 0 * 8 + 0 * 8) ∧
    parse_header [0, 0, 0, 0, 0, 0, 0, 0] = some (8 + 0 * 8 + 0 * 8) :=
  ⟨(claim_C1_header_offset _ 1 0 0).1 (by decide),
   (claim_C1_header_offset _ 0 0 0).2.1 (by decide),
   (claim_C1_header_offset _ 0 0 0).2.2 (by decide)⟩

/-- C8, counterexample to the claim as stated: `parse_header` does raise on
some malformed headers.  On the one-byte buffer `[7]` neither magic pattern
matches and the Unversioned path is taken, but the init-code count read then
raises `struct.error` (modelled as `none`); on the empty buffer `version[0]`
raises `IndexError`.  So "locate raises no error" is false. -/
theorem claim_C8_counterexample :
    parse_header [7] = none ∧ parse_header [] = none := by
  decide

/-- C8 (amended): the magic checks themselves raise no error on any buffer
with a first byte that matches neither pattern, and such buffers are
processed via the Unversioned path (cursor 0); `parse_header` then returns
normally provided the two 4-byte count fields themselves are readable (it
still raises when the buffer is too short for them, or empty). -/
theorem claim_C8_unversioned_fallback (buf : List Nat) (b0 ic cc : Nat) :
    ((buf[0]? = some b0 → b0 ≠ 0x56 → b0 ≠ 9 →
      evalCond1 (readAt buf 0 9) = some false ∧ evalCond2 (readAt buf 0 9) = some false)) ∧
    (evalCond1 (readAt buf 0 9) = some false → evalCond2 (readAt buf 0 9) = some false →
      byte2int (readAt buf 0 4) = some ic →
      byte2int (readAt buf (4 + ic * 8) 4) = some cc →
      parse_header buf = some (8 + ic * 8 + cc * 8)) := by
  constructor
  · intro h0 hne1 hne2
    have e0 := getElem?_readAt9 buf 0 (by omega)
    constructor
    · simp [evalCond1, e0, h0, hne1]
    · simp [evalCond2, e0, h0, hne2]
  · intro hc1 hc2 hic hcc
    exact parse_header_unversioned hc1 hc2 hic hcc

/-- Witness for the amended C8, at the buffers of the counterexample family:
`[7]` falls back without the magic checks raising, and a well-formed
Unversioned buffer parses to offset 8. -/
theorem claim_C8_unversioned_fallback_witness :
    (evalCond1 (readAt [7] 0 9) = some false ∧ evalCond2 (readAt [7] 0 9) = some false) ∧
    parse_header [0, 0, 0, 0, 0, 0, 0, 0] = some (8 + 0 * 8 + 0 * 8) :=
  ⟨(claim_C8_unversioned_fallback [7] 7 0 0).1 (by decide) (by decide) (by decide),
   (claim_C8_unversioned_fallback [0, 0, 0, 0, 0, 0, 0, 0] 0 0 0).2
     (by decide) (by decide) (by decide) (by decide)⟩

theorem byte2int_ne_nil {buf : List Nat} {pos v : Nat}
    (h : byte2int (readAt buf pos 4) = some v) : readAt buf pos 4 ≠ [] := by
  intro hnil
  rw [hnil] at h
  simp [byte2int] at h

/-- C3: `read_string_entry` returns the end-of-table sentinel when no length
bytes are available, the empty string when the decoded 4-byte little-endian
length is 0, and otherwise reads `length` bytes and lossily decodes them,
dropping a final 0x00 byte when present — returning normally (never
raising) in each of these cases. -/
theorem claim_C3_read_entry (buf : List Nat) (pos L : Nat) :
    (buf.length ≤ pos → read_string_entry buf pos = some (none, pos)) ∧
    (byte2int (readAt buf pos 4) = some 0 →
      read_string_entry buf pos = some (some [], pos + 4)) ∧
    (byte2int (readAt buf pos 4) = some L → 0 < L →
      read_string_entry buf pos =
        some (some (utf8DecodeReplace
            (if readAt buf (pos + 4) L ≠ [] ∧ (readAt buf (pos + 4) L).getLast? = some 0
             then (readAt buf (pos + 4) L).dropLast
             else readAt buf (pos + 4) L)),
          pos + 4 + (readAt buf (pos + 4) L).length)) := by
  refine ⟨fun h => ?_, fun hb => ?_, fun hb hpos => ?_⟩
  · simp [read_string_entry, readAt_eq_nil h]
  · have hne := byte2int_ne_nil hb
    simp [read_string_entry, hne, hb]
  · have hne := byte2int_ne_nil hb
    by_cases hcond : readAt buf (pos + 4) L ≠ [] ∧ (readAt buf (pos + 4) L).getLast? = some 0
    · simp [read_string_entry, hne, hb, hpos, hcond]
    · simp [read_string_entry, hne, hb, hpos, hcond]

/-- Witness for C3: an exhausted source, a zero length field, and a
two-byte null-terminated entry holding `A`. -/
theorem claim_C3_read_entry_witness :
    read_string_entry [] 0 = some (none, 0) ∧
    read_string_entry [0, 0, 0, 0] 0 = some (some [], 0 + 4) ∧
    read_string_entry [2, 0, 0, 0, 65, 0] 0 =
      some (some (utf8DecodeReplace
          (if readAt [2, 0, 0, 0, 65, 0] (0 + 4) 2 ≠ [] ∧
              (readAt [2, 0, 0, 0, 65, 0] (0 + 4) 2).getLast? = some 0
           then (readAt [2, 0, 0, 0, 65, 0] (0 + 4) 2).dropLast
           else readAt [2, 0, 0, 0, 65, 0] (0 + 4) 2)),
        0 + 4 + (readAt [2, 0, 0, 0, 65, 0] (0 + 4) 2).length) :=
  ⟨(claim_C3_read_entry [] 0 0).1 (by decide),
   (claim_C3_read_entry [0, 0, 0, 0] 0 0).2.1 (by decide),
   (claim_C3_read_entry [2, 0, 0, 0, 65, 0] 0 2).2.2 (by decide) (by decide)⟩

/-- C4: `write_string_entry t` emits exactly a 4-byte little-endian length
field holding `len(utf8(t)) + 1`, then the UTF-8 bytes of `t`, then one null
byte; the length field is always non-zero.  (The hypothesis reflects that
CPython's `struct.pack('<L', ·)` requires the length to fit in 32 bits.) -/
theorem claim_C4_write_entry (t : List Char) :
    (utf8Encode t).length + 1 < 4294967296 →
    write_string_entry t = some (u32le ((utf8Encode t).length + 1) ++ utf8Encode t ++ [0]) ∧
    (u32le ((utf8Encode t).length + 1)).length = 4 ∧
    byte2int (u32le ((utf8Encode t).length + 1)) = some ((utf8Encode t).length + 1) ∧
    0 < (utf8Encode t).length + 1 :=
  fun h => ⟨write_string_entry_good t h, rfl, byte2int_u32le h, Nat.succ_pos _⟩

/-- Witness for C4, at the empty text (the case the claim singles out). -/
theorem claim_C4_write_entry_witness :
    write_string_entry [] =
      some (u32le ((utf8Encode []).length + 1) ++ utf8Encode [] ++ [0]) ∧
    (u32le ((utf8Encode []).length + 1)).length = 4 ∧
    byte2int (u32le ((utf8Encode []).length + 1)) = some ((utf8Encode []).length + 1) ∧
    0 < (utf8Encode []).length + 1 :=
  claim_C4_write_entry [] (by decide)

/-- C5: reading back an entry just written yields the text again:
`write_string_entry` succeeds and `read_string_entry` on its output returns
exactly the original text, consuming all the bytes.  (The claim's
hypotheses — non-empty, no embedded nulls — are kept, together with the
32-bit length-field bound `struct.pack` imposes.) -/
theorem claim_C5_roundtrip (t : List Char) (hne : t ≠ []) (hnull : Char.ofNat 0 ∉ t)
    (hlen : (utf8Encode t).length + 1 < 4294967296) :
    ∃ bs, write_string_entry t = some bs ∧
      read_string_entry bs 0 = some (some t, bs.length) := by
  refine ⟨_, write_string_entry_good t hlen, ?_⟩
  have hread := read_string_entry_good
    (u32le ((utf8Encode t).length + 1) ++ utf8Encode t ++ [0]) 0 t [] hlen (by simp)
  have hlb : (u32le ((utf8Encode t).length + 1) ++ utf8Encode t ++ [0]).length =
      0 + 4 + ((utf8Encode t).length + 1) := by
    simp [u32le]
    omega
  rw [hlb]
  exact hread

/-- Witness for C5, at the one-character text `A`. -/
theorem claim_C5_roundtrip_witness :
    ∃ bs, write_string_entry ['A'] = some bs ∧
      read_string_entry bs 0 = some (some ['A'], bs.length) :=
  claim_C5_roundtrip ['A'] (by decide) (by decide) (by decide)

/-- C6: an entry with a zero length field reads back as the empty string;
writing the empty string back produces different bytes — the length field
becomes 1 (still 4 bytes, bytes `[1,0,0,0]`) and a 0x00 terminator is
appended — and reading those five bytes again yields the empty string. -/
theorem claim_C6_zero_length (buf : List Nat) (pos : Nat) :
    (byte2int (readAt buf pos 4) = some 0 →
      read_string_entry buf pos = some (some [], pos + 4)) ∧
    write_string_entry [] = some ([1, 0, 0, 0] ++ [0]) ∧
    read_string_entry [1, 0, 0, 0, 0] 0 = some (some [], 5) ∧
    byte2int [1, 0, 0, 0] = some 1 ∧
    ([1, 0, 0, 0, 0] : List Nat) ≠ [0, 0, 0, 0] := by
  refine ⟨fun hb => ?_, by decide, by decide, by decide, by decide⟩
  have hne := byte2int_ne_nil hb
  simp [read_string_entry, hne, hb]

/-- Witness for C6, at a stored zero-length entry. -/
theorem claim_C6_zero_length_witness :
    read_string_entry [0, 0, 0, 0] 0 = some (some [], 0 + 4) :=
  (claim_C6_zero_length [0, 0, 0, 0] 0).1 (by decide)

/-- C10 (implicit): when the decoded length field is positive but the source
holds fewer than `length` content bytes, `read_string_entry` neither raises
nor returns the sentinel: it lossily decodes the bytes actually read
(stripping a final 0x00 if present); in particular a cursor exactly at
end-of-data after the length field yields the empty string. -/
theorem claim_C10_short_content (buf : List Nat) (pos L : Nat) :
    (byte2int (readAt buf pos 4) = some L → 0 < L → buf.length < pos + 4 + L →
      read_string_entry buf pos =
        some (some (utf8DecodeReplace
            (if readAt buf (pos + 4) L ≠ [] ∧ (readAt buf (pos + 4) L).getLast? = some 0
             then (readAt buf (pos + 4) L).dropLast
             else readAt buf (pos + 4) L)),
          pos + 4 + (readAt buf (pos + 4) L).length)) ∧
    (byte2int (readAt buf pos 4) = some L → 0 < L → buf.length ≤ pos + 4 →
      read_string_entry buf pos = some (some [], pos + 4)) := by
  constructor
  · intro hb hpos _
    have hne := byte2int_ne_nil hb
    by_cases hcond : readAt buf (pos + 4) L ≠ [] ∧ (readAt buf (pos + 4) L).getLast? = some 0
    · simp [read_string_entry, hne, hb, hpos, hcond]
    · simp [read_string_entry, hne, hb, hpos, hcond]
  · intro hb hpos hend
    have hne := byte2int_ne_nil hb
    have hcontent : readAt buf (pos + 4) L = [] := readAt_eq_nil hend
    simp [read_string_entry, hne, hb, hpos, hcontent, utf8DecodeReplace_nil]

/-- Witness for C10: a length field of 5 with one content byte left, and a
length field of 3 with the source exhausted right after it. -/
theorem claim_C10_short_content_witness :
    read_string_entry [5, 0, 0, 0, 65] 0 =
      some (some (utf8DecodeReplace
          (if readAt [5, 0, 0, 0, 65] (0 + 4) 5 ≠ [] ∧
              (readAt [5, 0, 0, 0, 65] (0 + 4) 5).getLast? = some 0
           then (readAt [5, 0, 0, 0, 65] (0 + 4) 5).dropLast
           else readAt [5, 0, 0, 0, 65] (0 + 4) 5)),
        0 + 4 + (readAt [5, 0, 0, 0, 65] (0 + 4) 5).length) ∧
    read_string_entry [3, 0, 0, 0] 0 = some (some [], 0 + 4) :=
  ⟨(claim_C10_short_content [5, 0, 0, 0, 65] 0 5).1 (by decide) (by decide) (by decide),
   (claim_C10_short_content [3, 0, 0, 0] 0 3).2 (by decide) (by decide) (by decide)⟩

/-- C2: repacking a file whose string table is a run of well-formed entries
(positive length fields counting a null-terminated, valid-UTF-8 content)
with an empty translation map reproduces the source bytes exactly.  The
hypotheses spell out the container structure the claim presupposes: the
header parses to `off`, the count field at `off` reads `n`, and after the
`off + 9` header-plus-opaque bytes the buffer holds `n - 1` well-formed
entries followed by arbitrary trailing bytes. -/
theorem claim_C2_repack_identity (buf : List Nat) (off n : Nat)
    (entries : List (List Nat)) (tail : List Nat)
    (hoff : parse_header buf = some off)
    (hcount : byte2int (readAt buf off 4) = some n)
    (hentries : ∀ e ∈ entries, goodEntry e)
    (hnum : entries.length = n - 1)
    (hdrop : buf.drop (off + 9) = entries.flatten ++ tail) :
    import_script_file buf (fun _ => none) = some buf := by
  have hloop := import_entry_loop_id buf entries 0 (off + 9) tail hentries hdrop
  rw [hnum] at hloop
  have h1 : readAt buf 0 (off + 9) = buf.take (off + 9) := by
    simp [readAt]
  have h2 := drop_after buf (off + 9) entries.flatten tail hdrop
  simp only [import_script_file, hoff, hcount, hloop, h1, h2]
  conv_rhs => rw [← List.take_append_drop (off + 9) buf]
  rw [hdrop]
  simp [List.append_assoc]

/-- Witness for C2: an Unversioned container with `strCount = 3`, two entries
`A` and `B`, five opaque bytes, and two trailing bytes. -/
theorem claim_C2_repack_identity_witness :
    import_script_file [0, 0, 0, 0, 0, 0, 0, 0, 3, 0, 0, 0, 9, 9, 9, 9, 9,
        2, 0, 0, 0, 65, 0, 2, 0, 0, 0, 66, 0, 7, 7] (fun _ => none) =
      some [0, 0, 0, 0, 0, 0, 0, 0, 3, 0, 0, 0, 9, 9, 9, 9, 9,
        2, 0, 0, 0, 65, 0, 2, 0, 0, 0, 66, 0, 7, 7] := by
  refine claim_C2_repack_identity _ 8 3 [[2, 0, 0, 0, 65, 0], [2, 0, 0, 0, 66, 0]] [7, 7]
    (by decide) (by decide) ?_ (by decide) (by decide)
  intro e he
  rw [List.mem_cons, List.mem_singleton] at he
  rcases he with rfl | rfl
  · exact ⟨['A'], by decide, by decide⟩
  · exact ⟨['B'], by decide, by decide⟩

/-- C7 (code bug): the claim says a truncated string table makes
`read_string_entry` return the sentinel and both loops finish without
crashing.  Evaluating the code at concrete truncated inputs: with 1 to 3
stray bytes left, `read_string_entry` raises `struct.error` (`none`) instead
of returning the sentinel; and on a file whose count field promises two
entries but whose table is empty, `import_script` crashes (`None.encode`
raises `AttributeError`, modelled `none`) while only `dump_script` finishes
cleanly. -/
theorem claim_C7_truncated_crash :
    read_string_entry [5, 6] 0 = none ∧
    import_script_file [0, 0, 0, 0, 0, 0, 0, 0, 3, 0, 0, 0, 9, 9, 9, 9, 9]
      (fun _ => none) = none ∧
    dump_script_file [0, 0, 0, 0, 0, 0, 0, 0, 3, 0, 0, 0, 9, 9, 9, 9, 9] =
      some ([], 17) := by
  decide

/-- C9: on a container holding a run of `n - 1` well-formed entries after the
`off + 9` header bytes, both loops run exactly `strCount - 1 = n - 1` times:
dump collects rows with indices `0 .. n-2` and leaves the cursor right after
the run, and import (for any translation map whose entries are empty or
encodable) rewrites exactly that region, copying the trailing bytes — where
a nominal last entry would live — verbatim, never reading or rewriting
them. -/
theorem claim_C9_loop_count (buf : List Nat) (off n : Nat)
    (entries : List (List Nat)) (tail : List Nat) (tmap : Nat → Option (List Char))
    (hoff : parse_header buf = some off)
    (hcount : byte2int (readAt buf off 4) = some n)
    (hentries : ∀ e ∈ entries, goodEntry e)
    (hnum : entries.length = n - 1)
    (hdrop : buf.drop (off + 9) = entries.flatten ++ tail)
    (htm : ∀ i t, tmap i = some t → t = [] ∨ (utf8Encode t).length + 1 < 4294967296) :
    (∃ rows, dump_script_file buf = some (rows, off + 9 + entries.flatten.length) ∧
      rows.map Prod.fst = List.range (n - 1)) ∧
    (∃ out, import_script_file buf tmap = some (readAt buf 0 (off + 9) ++ out ++ tail)) := by
  constructor
  · obtain ⟨rows, hloop, hfst⟩ := dump_entry_loop_good buf entries 0 (off + 9) tail hentries hdrop
    rw [hnum] at hloop
    refine ⟨rows, ?_, ?_⟩
    · simp only [dump_script_file, hoff, hcount, hloop]
    · rw [hfst, List.range_eq_range', hnum]
  · obtain ⟨out, hloop⟩ := import_entry_loop_general buf tmap htm entries 0 (off + 9) tail
      hentries hdrop
    rw [hnum] at hloop
    have h2 := drop_after buf (off + 9) entries.flatten tail hdrop
    refine ⟨out, ?_⟩
    simp only [import_script_file, hoff, hcount, hloop, h2]

/-- Witness for C9, at the same concrete container as C2 and a translation
map sending index 0 to `X`. -/
theorem claim_C9_loop_count_witness :
    (∃ rows, dump_script_file [0, 0, 0, 0, 0, 0, 0, 0, 3, 0, 0, 0, 9, 9, 9, 9, 9,
        2, 0, 0, 0, 65, 0, 2, 0, 0, 0, 66, 0, 7, 7] =
        some (rows, 8 + 9 + ([[2, 0, 0, 0, 65, 0], [2, 0, 0, 0, 66, 0]] :
          List (List Nat)).flatten.length) ∧
      rows.map Prod.fst = List.range (3 - 1)) ∧
    (∃ out, import_script_file [0, 0, 0, 0, 0, 0, 0, 0, 3, 0, 0, 0, 9, 9, 9, 9, 9,
        2, 0, 0, 0, 65, 0, 2, 0, 0, 0, 66, 0, 7, 7]
        (fun i => if i = 0 then some ['X'] else none) =
      some (readAt [0, 0, 0, 0, 0, 0, 0, 0, 3, 0, 0, 0, 9, 9, 9, 9, 9,
        2, 0, 0, 0, 65, 0, 2, 0, 0, 0, 66, 0, 7, 7] 0 (8 + 9) ++ out ++ [7, 7])) := by
  refine claim_C9_loop_count _ 8 3 [[2, 0, 0, 0, 65, 0], [2, 0, 0, 0, 66, 0]] [7, 7] _
    (by decide) (by decide) ?_ (by decide) (by decide) ?_
  · intro e he
    rw [List.mem_cons, List.mem_singleton] at he
    rcases he with rfl | rfl
    · exact ⟨['A'], by decide, by decide⟩
    · exact ⟨['B'], by decide, by decide⟩
  · intro i t h
    by_cases hi : i = 0
    · subst hi
      simp at h
      subst h
      exact Or.inr (by decide)
    · simp [hi] at h
